import Mathlib

/-!
Verification development for the ATM PIN generator program
(atm_pin_generator.cpp).  C++ strings are modelled as lists of
characters, raw bytes as natural numbers, and the C++ `int` type as
unbounded `Int` (no claim exercises machine-integer overflow).
-/

namespace ATM

/-- Numeric value of a character as computed by the C++ expression
`pin[i] - '0'` (signed integer arithmetic). -/
def charVal (c : Char) : Int := (c.toNat : Int) - 48

/-- Remainder of the `asc` flag computation of `isSequential`: the flag
stays true while every next digit equals the previous one plus 1. -/
def ascFrom : Int → List Char → Bool
  | _, [] => true
  | prev, c :: rest => decide (charVal c = prev + 1) && ascFrom (charVal c) rest

/-- Remainder of the `desc` flag computation of `isSequential`. -/
def descFrom : Int → List Char → Bool
  | _, [] => true
  | prev, c :: rest => decide (charVal c = prev - 1) && descFrom (charVal c) rest

/-- The C++ function `isSequential`: a single pass keeps two flags `asc`
and `desc`, clearing `asc` whenever a pair is not ascending by exactly 1
and `desc` whenever a pair is not descending by exactly 1, and returns
`asc || desc`.  The two flag computations are independent, so the pass is
modelled by the two folds `ascFrom` and `descFrom`. -/
def isSequential (pin : List Char) : Bool :=
  match pin with
  | [] => true
  | c :: rest => ascFrom (charVal c) rest || descFrom (charVal c) rest

/-- The run-counting loop of the C++ function `hasTooManyRepeats`:
`sameCount` is incremented on a repeated character and reset to 1
otherwise; the function returns true as soon as `sameCount` reaches 3. -/
def repAux : Char → Nat → List Char → Bool
  | _, _, [] => false
  | prev, sameCount, c :: rest =>
    if c = prev then
      if 3 ≤ sameCount + 1 then true else repAux c (sameCount + 1) rest
    else repAux c 1 rest

/-- The C++ function `hasTooManyRepeats`: true when a run of 3 equal
consecutive characters exists, or when all characters equal the first
one.  On the empty string the C++ code returns true (the `allSame` flag
is never cleared). -/
def hasTooManyRepeats (pin : List Char) : Bool :=
  match pin with
  | [] => true
  | c0 :: rest => repAux c0 1 rest || (c0 :: rest).all fun c => c = c0

/-- Spec-side predicate: every adjacent pair of the string ascends by
exactly 1. -/
def AscSeq (pin : List Char) : Prop :=
  List.Chain' (fun a b => charVal b = charVal a + 1) pin

/-- Spec-side predicate: every adjacent pair of the string descends by
exactly 1. -/
def DescSeq (pin : List Char) : Prop :=
  List.Chain' (fun a b => charVal b = charVal a - 1) pin

/-- Spec-side predicate: the string contains a run of 3 or more identical
consecutive characters. -/
def HasRun3 (pin : List Char) : Prop :=
  ∃ c ∈ pin, [c, c, c] <:+: pin

/-- Spec-side predicate: all characters of the string are identical. -/
def AllSame (pin : List Char) : Prop :=
  ∀ c ∈ pin, ∀ d ∈ pin, c = d

theorem ascFrom_iff_chain (l : List Char) : ∀ c : Char,
    (ascFrom (charVal c) l = true ↔
      List.Chain (fun a b => charVal b = charVal a + 1) c l) := by
  induction l with
  | nil => intro c; simp [ascFrom]
  | cons d rest ih =>
    intro c
    simp [ascFrom, List.chain_cons, ih d, Bool.and_eq_true, and_comm]

theorem descFrom_iff_chain (l : List Char) : ∀ c : Char,
    (descFrom (charVal c) l = true ↔
      List.Chain (fun a b => charVal b = charVal a - 1) c l) := by
  induction l with
  | nil => intro c; simp [descFrom]
  | cons d rest ih =>
    intro c
    simp [descFrom, List.chain_cons, ih d, Bool.and_eq_true, and_comm]

theorem isSequential_iff (pin : List Char) (hne : pin ≠ []) :
    (isSequential pin = true ↔ AscSeq pin ∨ DescSeq pin) := by
  cases pin with
  | nil => exact absurd rfl hne
  | cons c rest =>
    simp only [isSequential, Bool.or_eq_true, AscSeq, DescSeq, List.chain'_cons.symm]
    rw [ascFrom_iff_chain rest c, descFrom_iff_chain rest c]
    constructor
    · rintro (h | h)
      · exact Or.inl h
      · exact Or.inr h
    · rintro (h | h)
      · exact Or.inl h
      · exact Or.inr h

theorem repAux_eq_true_iff : ∀ (l : List Char) (prev : Char) (count : Nat),
    1 ≤ count → count ≤ 2 →
    (repAux prev count l = true ↔
      ∃ c, [c, c, c] <:+: (List.replicate count prev ++ l)) := by
  intro l
  induction l with
  | nil =>
    intro prev count h1 h2
    simp only [repAux, List.append_nil]
    constructor
    · intro h; exact absurd h (by simp)
    · rintro ⟨c, hc⟩
      have hlen := hc.length_le
      simp [List.length_replicate] at hlen
      omega
  | cons c l ih =>
    intro prev count h1 h2
    by_cases hc : c = prev
    · subst hc
      by_cases h3 : count = 2
      · subst h3
        have hstep : repAux c 2 (c :: l) = true := by simp [repAux]
        rw [hstep]
        constructor
        · intro _
          exact ⟨c, ⟨[], l, by simp [List.replicate_succ]⟩⟩
        · intro _; rfl
      · have hcount : count = 1 := by omega
        subst hcount
        have hstep : repAux c 1 (c :: l) = repAux c 2 l := by simp [repAux]
        rw [hstep, ih c 2 (by omega) (by omega)]
        constructor
        · rintro ⟨d, hd⟩
          exact ⟨d, by simpa [List.replicate_succ] using hd⟩
        · rintro ⟨d, hd⟩
          exact ⟨d, by simpa [List.replicate_succ] using hd⟩
    · have hstep : repAux prev count (c :: l) = repAux c 1 l := by simp [repAux, hc]
      rw [hstep, ih c 1 (by omega) (by omega)]
      constructor
      · rintro ⟨d, hd⟩
        refine ⟨d, hd.trans ?_⟩
        simpa [List.replicate_succ] using
          (List.suffix_append (List.replicate count prev) (c :: l)).isInfix
      · rintro ⟨d, hd⟩
        refine ⟨d, ?_⟩
        simp only [List.replicate_succ] at hd ⊢
        interval_cases count
        · simp only [List.replicate, List.nil_append, List.cons_append] at hd
          rcases List.infix_cons_iff.mp hd with hpre | hinf
          · rcases List.cons_prefix_cons.mp hpre with ⟨hdp, hrest⟩
            rcases List.cons_prefix_cons.mp hrest with ⟨hdc, _⟩
            exact absurd (hdc ▸ hdp ▸ rfl : c = prev) hc
          · simpa using hinf
        · simp only [List.replicate, List.nil_append, List.cons_append] at hd
          rcases List.infix_cons_iff.mp hd with hpre | hinf
          · rcases List.cons_prefix_cons.mp hpre with ⟨hdp, hrest⟩
            rcases List.cons_prefix_cons.mp hrest with ⟨_, hrest2⟩
            rcases List.cons_prefix_cons.mp hrest2 with ⟨hdc, _⟩
            exact absurd (hdc ▸ hdp ▸ rfl : c = prev) hc
          · rcases List.infix_cons_iff.mp hinf with hpre | hinf2
            · rcases List.cons_prefix_cons.mp hpre with ⟨hdp, hrest⟩
              rcases List.cons_prefix_cons.mp hrest with ⟨hdc, _⟩
              exact absurd (hdc ▸ hdp ▸ rfl : c = prev) hc
            · simpa using hinf2

theorem hasTooManyRepeats_iff (pin : List Char) (hne : pin ≠ []) :
    (hasTooManyRepeats pin = true ↔ HasRun3 pin ∨ AllSame pin) := by
  cases pin with
  | nil => exact absurd rfl hne
  | cons c0 rest =>
    simp only [hasTooManyRepeats, Bool.or_eq_true]
    have hrep := repAux_eq_true_iff rest c0 1 (by omega) (by omega)
    simp only [List.replicate, List.nil_append, List.cons_append] at hrep
    constructor
    · rintro (h | h)
      · rcases hrep.mp h with ⟨d, hd⟩
        refine Or.inl ⟨d, ?_, by simpa using hd⟩
        have : d ∈ [d, d, d] := by simp
        exact (by simpa using hd : [d,d,d] <:+: c0 :: rest).subset this
      · refine Or.inr ?_
        intro a ha b hb
        simp only [List.all_eq_true, decide_eq_true_eq] at h
        rw [h a ha, h b hb]
    · rintro (⟨d, _, hd⟩ | h)
      · exact Or.inl (hrep.mpr ⟨d, by simpa using hd⟩)
      · refine Or.inr ?_
        simp only [List.all_eq_true, decide_eq_true_eq]
        intro a ha
        exact h a ha c0 (by simp)

/-- The fixed banned-PIN set of `generatePin` (the C++ local static
`unordered_set<string> banned`). -/
def bannedPins : List (List Char) :=
  [['1','2','3','4'], ['0','0','0','0'], ['1','1','1','1'], ['1','2','1','2'],
   ['7','7','7','7'], ['1','0','0','4'], ['2','0','0','0'], ['4','3','2','1'],
   ['2','5','8','0']]

/-- One candidate draw of `generatePin`: `length` uniformly random digits
taken from the random source, each appended as the character `'0' + d`.
The source is modelled as a stream of digits indexed by draw position. -/
def drawPin (stream : Nat → Fin 10) (off len : Nat) : List Char :=
  (List.range len).map fun i => Nat.digitChar (stream (off + i)).val

/-- The C++ function `generatePin`: draw a candidate, retry while it is
sequential, repeat-heavy or banned, otherwise return it.  The unbounded
C++ `for (;;)` loop is modelled with explicit fuel; `none` means the fuel
ran out before a candidate was accepted. -/
def generatePin : Nat → (Nat → Fin 10) → Nat → Nat → Option (List Char)
  | 0, _, _, _ => none
  | fuel + 1, stream, len, off =>
    let pin := drawPin stream off len
    if isSequential pin then generatePin fuel stream len (off + len)
    else if hasTooManyRepeats pin then generatePin fuel stream len (off + len)
    else if pin ∈ bannedPins then generatePin fuel stream len (off + len)
    else some pin

theorem drawPin_length (stream : Nat → Fin 10) (off len : Nat) :
    (drawPin stream off len).length = len := by
  simp [drawPin]

theorem drawPin_digits (stream : Nat → Fin 10) (off len : Nat) :
    ∀ c ∈ drawPin stream off len, c.isDigit = true := by
  intro c hc
  simp only [drawPin, List.mem_map, List.mem_range] at hc
  obtain ⟨i, _, rfl⟩ := hc
  have h10 := (stream (off + i)).isLt
  interval_cases h : (stream (off + i)).val <;> simp_all <;> rfl

/-- Byte values of the fixed obfuscation key, the C++ string constant
`"sachin_key_v1"`. -/
def obfKey : List Nat :=
  ['s','a','c','h','i','n','_','k','e','y','_','v','1'].map Char.toNat

/-- Index-tracking loop of `obfuscate`: byte `i` of the output is byte
`i` of the input XORed with `key[i % key.size()]`. -/
def obfAux (key : List Nat) : Nat → List Nat → List Nat
  | _, [] => []
  | i, b :: rest => (b ^^^ key.getD (i % key.length) 0) :: obfAux key (i + 1) rest

/-- The C++ function `obfuscate`: XOR every byte of the input with the
repeating fixed key. -/
def obfuscate (s : List Nat) : List Nat := obfAux obfKey 0 s

/-- The C++ function `deobfuscate`: applying `obfuscate` again (XOR with
the same key is symmetric). -/
def deobfuscate (s : List Nat) : List Nat := obfuscate s

theorem obfAux_obfAux (key : List Nat) (s : List Nat) :
    ∀ i, obfAux key i (obfAux key i s) = s := by
  induction s with
  | nil => intro i; rfl
  | cons b rest ih =>
    intro i
    simp [obfAux, ih (i + 1), Nat.xor_cancel_right]

theorem obfuscate_obfuscate (s : List Nat) : obfuscate (obfuscate s) = s :=
  obfAux_obfAux obfKey s 0

/-- Structural helper for decimal rendering: the first argument is fuel
bounding the number of digits, so that the definition reduces inside the
kernel; `fmtNat` always supplies enough fuel. -/
def fmtNatAux : Nat → Nat → List Char
  | 0, _ => []
  | fuel + 1, n =>
    if n < 10 then [Nat.digitChar n]
    else fmtNatAux fuel (n / 10) ++ [Nat.digitChar (n % 10)]

/-- Decimal rendering of a nonnegative integer, as produced by stream
insertion of an `int` into the `ostringstream` of `User::serialize`. -/
def fmtNat (n : Nat) : List Char := fmtNatAux (n + 1) n

theorem fmtNatAux_congr : ∀ (f1 : Nat), ∀ f2 n, n < f1 → n < f2 →
    fmtNatAux f1 n = fmtNatAux f2 n := by
  intro f1
  induction f1 with
  | zero => intro f2 n h1 _; omega
  | succ f ih =>
    intro f2 n h1 h2
    cases f2 with
    | zero => omega
    | succ g =>
      rw [fmtNatAux, fmtNatAux]
      by_cases hn : n < 10
      · rw [if_pos hn, if_pos hn]
      · rw [if_neg hn, if_neg hn,
          ih g (n / 10) (by omega) (by omega)]

theorem fmtNat_eq (n : Nat) : fmtNat n =
    if n < 10 then [Nat.digitChar n]
    else fmtNat (n / 10) ++ [Nat.digitChar (n % 10)] := by
  rw [fmtNat, fmtNatAux]
  by_cases hn : n < 10
  · rw [if_pos hn, if_pos hn]
  · rw [if_neg hn, if_neg hn, fmtNat,
      fmtNatAux_congr n (n / 10 + 1) (n / 10) (by omega) (by omega)]

/-- Decimal rendering of a possibly negative integer. -/
def fmtInt (n : Int) : List Char :=
  if n < 0 then '-' :: fmtNat n.natAbs else fmtNat n.natAbs

/-- Rendering of the balance by `<< fixed << setprecision(2) << balance`.
The C++ `double` balance is modelled by an exact integer count of cents,
the value domain that the two-decimal on-disk format can represent. -/
def fmtBalance (cents : Int) : List Char :=
  (if cents < 0 then ['-'] else []) ++ fmtNat (cents.natAbs / 100) ++
    '.' :: [Nat.digitChar (cents.natAbs % 100 / 10), Nat.digitChar (cents.natAbs % 100 % 10)]

/-- Characters accepted by `isspace` in the default locale, which `stoi`
and `stod` skip before the number. -/
def isSpaceCh (c : Char) : Bool := [32, 9, 10, 11, 12, 13].contains c.toNat

/-- Digit test on the character code, the subset of characters consumed
by the integer parts of `strtol` and `strtod`. -/
def isDigitCh (c : Char) : Bool := 48 ≤ c.toNat && c.toNat ≤ 57

/-- Numeric value of a maximal digit sequence. -/
def parseNat (ds : List Char) : Nat :=
  ds.foldl (fun a c => 10 * a + (c.toNat - 48)) 0

/-- Maximal leading run of decimal digits of a token. -/
def leadDigits (l : List Char) : List Char := l.takeWhile isDigitCh

/-- Digit-sequence parse used by `stoi` after sign handling: fails when
no digit is present, otherwise consumes the maximal digit run and
ignores any trailing junk, exactly as `std::stoi` does. -/
def parseDigits (l : List Char) : Option Nat :=
  if leadDigits l = [] then none else some (parseNat (leadDigits l))

/-- Model of `std::stoi` on a field token: skip leading whitespace, an
optional sign, then require at least one digit; trailing junk after the
digit run is ignored.  The C++ `int` range check is not modelled (the
claims under study do not exercise overflow). -/
def stoiM (tok : List Char) : Option Int :=
  match tok.dropWhile isSpaceCh with
  | [] => none
  | c :: rest =>
    if c = '-' then (parseDigits rest).map fun n => -(n : Int)
    else if c = '+' then (parseDigits rest).map fun n => (n : Int)
    else (parseDigits (c :: rest)).map fun n => (n : Int)

/-- Fraction-to-cents conversion: the serialized format carries exactly
two fraction digits; digits beyond the second do not change the cents
value of the model. -/
def fracCents : List Char → Nat
  | [] => 0
  | [d] => (d.toNat - 48) * 10
  | d1 :: d2 :: _ => (d1.toNat - 48) * 10 + (d2.toNat - 48)

/-- Unsigned part of the `stod` model: digits, then optionally a point
and more digits; at least one digit must be present on one of the two
sides.  Trailing junk is ignored, as `std::stod` ignores everything
after the longest valid numeric prefix. -/
def stodCentsAux (t : List Char) : Option Nat :=
  let ip := t.takeWhile isDigitCh
  match t.dropWhile isDigitCh with
  | [] => if ip = [] then none else some (parseNat ip * 100)
  | c :: frac =>
    if c = '.' then
      if ip = [] ∧ frac.takeWhile isDigitCh = [] then none
      else some (parseNat ip * 100 + fracCents (frac.takeWhile isDigitCh))
    else if ip = [] then none else some (parseNat ip * 100)

/-- Model of `std::stod` on a field token, restricted to the plain
decimal notation that `User::serialize` emits: optional whitespace and
sign, digits with an optional fraction.  Hexadecimal, infinity, NaN and
exponent forms of `strtod` are outside the model, and the value is kept
as an exact count of cents. -/
def stodCentsM (tok : List Char) : Option Int :=
  match tok.dropWhile isSpaceCh with
  | [] => none
  | c :: rest =>
    if c = '-' then (stodCentsAux rest).map fun n => -(n : Int)
    else if c = '+' then (stodCentsAux rest).map fun n => (n : Int)
    else (stodCentsAux (c :: rest)).map fun n => (n : Int)

/-- The C++ `struct User`.  `balance` (a `double` always written and
read with exactly two decimals) is modelled as an exact count of cents;
`wrongAttempts` (an `int`) as an unbounded integer. -/
structure User where
  username : List Char
  pin : List Char
  balanceCents : Int
  wrongAttempts : Int
  locked : Bool
deriving DecidableEq

/-- The five '|'-separated tokens of the serialized record, in the fixed
order username, pin, balance, wrongAttempts, locked. -/
def serializeTokens (u : User) : List (List Char) :=
  [u.username, u.pin, fmtBalance u.balanceCents, fmtInt u.wrongAttempts,
   if u.locked then ['1'] else ['0']]

/-- The plaintext line assembled by `User::serialize` before obfuscation. -/
def serializePlain (u : User) : List Char :=
  List.intercalate ['|'] (serializeTokens u)

/-- The C++ method `User::serialize`: assemble the delimited line, then
obfuscate its bytes. -/
def serialize (u : User) : List Nat :=
  obfuscate ((serializePlain u).map Char.toNat)

/-- The C++ method `User::deserialize`: deobfuscate, split the line on
`'|'`, parse balance with `stod` and attempts with `stoi` (either parse
failure raises, modelled as `none`), and read `locked` as the comparison
of the fifth token with the one-character string 1.  The i-th `getline`
yields the i-th field while one is available; once the stream has hit
end of input, the sentry of `getline` fails before the target string is
erased, so the target is left UNCHANGED.  `username` and `pin` have
their own (initially empty) targets, while reads three to five share the
single `token` variable (initially empty), so a read past the last field
reuses the previous token: `balTok` falls back to the empty initial
token, `attTok` falls back to `balTok`, and the locked token falls back
to `attTok`.  (The boundary read that finds the stream exactly at end of
input still erases its target before failing, which coincides with the
empty final field that `splitOn` produces there.) -/
def deserialize (bytes : List Nat) : Option User :=
  let fields := ((deobfuscate bytes).map Char.ofNat).splitOn '|'
  let balTok := fields.getD 2 []
  let attTok := fields.getD 3 balTok
  match stodCentsM balTok, stoiM attTok with
  | some b, some w =>
    some ⟨fields.getD 0 [], fields.getD 1 [], b, w, fields.getD 4 attTok = ['1']⟩
  | _, _ => none

theorem digitChar_toNat (k : Nat) (h : k < 10) : (Nat.digitChar k).toNat = 48 + k := by
  interval_cases k <;> rfl

theorem isDigitCh_digitChar (k : Nat) (h : k < 10) : isDigitCh (Nat.digitChar k) = true := by
  simp only [isDigitCh, digitChar_toNat k h, Bool.and_eq_true, decide_eq_true_eq]
  omega

theorem fmtNat_ne_nil (n : Nat) : fmtNat n ≠ [] := by
  rw [fmtNat_eq]
  split
  · simp
  · simp

theorem fmtNat_digits (n : Nat) : ∀ c ∈ fmtNat n, isDigitCh c = true := by
  induction n using Nat.strong_induction_on with
  | _ n ih =>
    rw [fmtNat_eq]
    split
    · intro c hc
      rw [List.mem_singleton] at hc
      subst hc
      exact isDigitCh_digitChar n (by omega)
    · intro c hc
      rcases List.mem_append.mp hc with h | h
      · exact ih (n / 10) (Nat.div_lt_self (by omega) (by omega)) c h
      · rw [List.mem_singleton] at h
        subst h
        exact isDigitCh_digitChar (n % 10) (Nat.mod_lt _ (by omega))

theorem foldl_fmtNat (n : Nat) : ∀ a : Nat,
    (fmtNat n).foldl (fun a c => 10 * a + (c.toNat - 48)) a =
      a * 10 ^ (fmtNat n).length + n := by
  induction n using Nat.strong_induction_on with
  | _ n ih =>
    intro a
    rw [fmtNat_eq]
    split
    · rename_i h
      simp [List.foldl, digitChar_toNat n h]
      omega
    · rename_i h
      rw [List.foldl_append, ih (n / 10) (Nat.div_lt_self (by omega) (by omega)) a]
      simp only [List.foldl, List.length_append, List.length_singleton]
      rw [digitChar_toNat (n % 10) (Nat.mod_lt _ (by omega))]
      rw [pow_succ]
      have hdm : 10 * (n / 10) + n % 10 = n := Nat.div_add_mod n 10
      ring_nf
      omega

theorem parseNat_fmtNat (n : Nat) : parseNat (fmtNat n) = n := by
  have h := foldl_fmtNat n 0
  simpa [parseNat] using h

theorem takeWhile_eq_self {α} (p : α → Bool) (l : List α) (h : ∀ c ∈ l, p c = true) :
    l.takeWhile p = l := by
  induction l with
  | nil => rfl
  | cons c rest ih =>
    rw [List.takeWhile_cons, if_pos (h c (by simp))]
    rw [ih fun x hx => h x (by simp [hx])]

theorem takeWhile_append_not {α} (p : α → Bool) (l r : List α) (d : α)
    (hl : ∀ c ∈ l, p c = true) (hd : p d = false) :
    ((l ++ d :: r).takeWhile p) = l := by
  induction l with
  | nil => simp [List.takeWhile_cons, hd]
  | cons c rest ih =>
    rw [List.cons_append, List.takeWhile_cons, if_pos (hl c (by simp))]
    rw [ih fun x hx => hl x (by simp [hx])]

theorem dropWhile_append_not {α} (p : α → Bool) (l r : List α) (d : α)
    (hl : ∀ c ∈ l, p c = true) (hd : p d = false) :
    ((l ++ d :: r).dropWhile p) = d :: r := by
  induction l with
  | nil => simp [List.dropWhile_cons, hd]
  | cons c rest ih =>
    rw [List.cons_append, List.dropWhile_cons, if_pos (hl c (by simp))]
    exact ih fun x hx => hl x (by simp [hx])

theorem isSpaceCh_of_digit (c : Char) (h : isDigitCh c = true) : isSpaceCh c = false := by
  simp only [isDigitCh, Bool.and_eq_true, decide_eq_true_eq] at h
  simp only [isSpaceCh, List.contains_eq_any_beq, List.any_eq_false, beq_iff_eq]
  intro x hx
  fin_cases hx <;> omega

theorem digit_ne_minus (c : Char) (h : isDigitCh c = true) : c ≠ '-' := by
  intro hc
  subst hc
  simp [isDigitCh] at h

theorem digit_ne_plus (c : Char) (h : isDigitCh c = true) : c ≠ '+' := by
  intro hc
  subst hc
  simp [isDigitCh] at h

theorem digit_ne_dot (c : Char) (h : isDigitCh c = true) : c ≠ '.' := by
  intro hc
  subst hc
  simp [isDigitCh] at h

theorem digit_ne_pipe (c : Char) (h : isDigitCh c = true) : c ≠ '|' := by
  intro hc
  subst hc
  simp [isDigitCh] at h

theorem stoiM_fmtNat (m : Nat) : stoiM (fmtNat m) = some (m : Int) := by
  obtain ⟨c, rest, hcr⟩ : ∃ c rest, fmtNat m = c :: rest := by
    cases h : fmtNat m with
    | nil => exact absurd h (fmtNat_ne_nil m)
    | cons c rest => exact ⟨c, rest, rfl⟩
  have hdigits := fmtNat_digits m
  rw [hcr] at hdigits
  have hcd : isDigitCh c = true := hdigits c (by simp)
  have hdrop : (c :: rest).dropWhile isSpaceCh = c :: rest := by
    rw [List.dropWhile_cons, if_neg (by simp [isSpaceCh_of_digit c hcd])]
  rw [stoiM, hcr, hdrop]
  simp only [if_neg (digit_ne_minus c hcd), if_neg (digit_ne_plus c hcd)]
  have htake : leadDigits (c :: rest) = c :: rest :=
    takeWhile_eq_self isDigitCh (c :: rest) hdigits
  rw [parseDigits, htake, if_neg (by simp)]
  rw [← hcr, parseNat_fmtNat]
  rfl

theorem stoiM_fmtInt (w : Int) (hw : 0 ≤ w) : stoiM (fmtInt w) = some w := by
  rw [fmtInt, if_neg (by omega)]
  rw [stoiM_fmtNat w.natAbs, Int.natAbs_of_nonneg hw]

theorem stodCentsM_fmtBalance (b : Int) (hb : 0 ≤ b) :
    stodCentsM (fmtBalance b) = some b := by
  set q := b.natAbs / 100 with hq
  set m := b.natAbs % 100 with hm
  have hm100 : m < 100 := Nat.mod_lt _ (by omega)
  set d1 := Nat.digitChar (m / 10) with hd1
  set d2 := Nat.digitChar (m % 10) with hd2
  have hd1d : isDigitCh d1 = true := isDigitCh_digitChar _ (by omega)
  have hd2d : isDigitCh d2 = true := isDigitCh_digitChar _ (Nat.mod_lt _ (by omega))
  have hfb : fmtBalance b = fmtNat q ++ '.' :: [d1, d2] := by
    rw [fmtBalance, if_neg (by omega)]
    rfl
  obtain ⟨c, rest, hcr⟩ : ∃ c rest, fmtNat q = c :: rest := by
    cases h : fmtNat q with
    | nil => exact absurd h (fmtNat_ne_nil q)
    | cons c rest => exact ⟨c, rest, rfl⟩
  have hdigits := fmtNat_digits q
  rw [hcr] at hdigits
  have hcd : isDigitCh c = true := hdigits c (by simp)
  have hdot : isDigitCh '.' = false := by simp [isDigitCh]
  have htake : (fmtNat q ++ '.' :: [d1, d2]).takeWhile isDigitCh = fmtNat q :=
    takeWhile_append_not isDigitCh (fmtNat q) [d1, d2] '.' (fmtNat_digits q) hdot
  have hdropd : (fmtNat q ++ '.' :: [d1, d2]).dropWhile isDigitCh = '.' :: [d1, d2] :=
    dropWhile_append_not isDigitCh (fmtNat q) [d1, d2] '.' (fmtNat_digits q) hdot
  have hfrac : ([d1, d2].takeWhile isDigitCh) = [d1, d2] :=
    takeWhile_eq_self isDigitCh [d1, d2] (by
      intro x hx
      rcases List.mem_cons.mp hx with h | h
      · subst h; exact hd1d
      · rw [List.mem_singleton] at h; subst h; exact hd2d)
  have hfc : fracCents [d1, d2] = m := by
    rw [fracCents, hd1, hd2, digitChar_toNat _ (by omega),
      digitChar_toNat _ (Nat.mod_lt _ (by omega))]
    omega
  have hcond : ¬(fmtNat q = [] ∧ List.takeWhile isDigitCh [d1, d2] = []) := by
    intro hcontra
    exact fmtNat_ne_nil q hcontra.1
  have haux : stodCentsAux (fmtNat q ++ '.' :: [d1, d2]) = some (q * 100 + m) := by
    simp only [stodCentsAux, htake, hdropd, if_true]
    rw [if_neg hcond, hfrac, parseNat_fmtNat, hfc]
  have hline : fmtBalance b = c :: (rest ++ '.' :: [d1, d2]) := by
    rw [hfb, hcr]
    rfl
  have hdrop : (c :: (rest ++ '.' :: [d1, d2])).dropWhile isSpaceCh =
      c :: (rest ++ '.' :: [d1, d2]) := by
    rw [List.dropWhile_cons, if_neg (by simp [isSpaceCh_of_digit c hcd])]
  have hback : c :: (rest ++ '.' :: [d1, d2]) = fmtNat q ++ '.' :: [d1, d2] := by
    rw [hcr]
    rfl
  rw [hline]
  simp only [stodCentsM, hdrop]
  rw [if_neg (digit_ne_minus c hcd), if_neg (digit_ne_plus c hcd), hback, haux]
  have hval : (q * 100 + m : Nat) = b.natAbs := by
    rw [hq, hm]
    omega
  simp [hval, Int.natAbs_of_nonneg hb]

theorem pipe_notMem_of_digits (l : List Char) (h : ∀ c ∈ l, isDigitCh c = true) :
    '|' ∉ l := by
  intro hmem
  have := h _ hmem
  simp [isDigitCh] at this

theorem pipe_notMem_fmtInt (w : Int) : '|' ∉ fmtInt w := by
  rw [fmtInt]
  split
  · intro hmem
    rcases List.mem_cons.mp hmem with h | h
    · exact absurd h (by decide)
    · exact pipe_notMem_of_digits _ (fmtNat_digits _) h
  · exact pipe_notMem_of_digits _ (fmtNat_digits _)

theorem pipe_notMem_fmtBalance (b : Int) : '|' ∉ fmtBalance b := by
  rw [fmtBalance]
  intro hmem
  rcases List.mem_append.mp hmem with h | h
  · rcases List.mem_append.mp h with h1 | h1
    · split at h1
      · rw [List.mem_singleton] at h1
        exact absurd h1 (by decide)
      · simp at h1
    · exact pipe_notMem_of_digits _ (fmtNat_digits _) h1
  · rcases List.mem_cons.mp h with h1 | h1
    · exact absurd h1 (by decide)
    · rcases List.mem_cons.mp h1 with h2 | h2
      · have := isDigitCh_digitChar (b.natAbs % 100 / 10) (by omega)
        simp [← h2, isDigitCh] at this
      · rw [List.mem_singleton] at h2
        have := isDigitCh_digitChar (b.natAbs % 100 % 10) (Nat.mod_lt _ (by omega))
        simp [← h2, isDigitCh] at this

theorem map_ofNat_toNat (l : List Char) : (l.map Char.toNat).map Char.ofNat = l := by
  induction l with
  | nil => rfl
  | cons c rest ih => simp [ih, Char.ofNat_toNat]

theorem serializePlain_splitOn (u : User) (hu : '|' ∉ u.username) (hp : '|' ∉ u.pin) :
    (serializePlain u).splitOn '|' = serializeTokens u := by
  apply List.splitOn_intercalate
  · intro l hl
    rw [serializeTokens] at hl
    rcases List.mem_cons.mp hl with rfl | hl
    · exact hu
    rcases List.mem_cons.mp hl with rfl | hl
    · exact hp
    rcases List.mem_cons.mp hl with rfl | hl
    · exact pipe_notMem_fmtBalance u.balanceCents
    rcases List.mem_cons.mp hl with rfl | hl
    · exact pipe_notMem_fmtInt u.wrongAttempts
    rcases List.mem_cons.mp hl with rfl | hl
    · split <;> decide
    · simp at hl
  · rw [serializeTokens]
    simp

/-- C2: for every valid Account (non-empty username without the
delimiter, digit-string pin, non-negative balance, non-negative
wrongAttempts), deserializing the serialized record yields the same
Account field-for-field. -/
theorem deserialize_serialize_roundtrip (u : User) (_h1 : u.username ≠ [])
    (h2 : '|' ∉ u.username) (h3 : ∀ c ∈ u.pin, isDigitCh c = true)
    (h4 : 0 ≤ u.balanceCents) (h5 : 0 ≤ u.wrongAttempts) :
    deserialize (serialize u) = some u := by
  have hsplit := serializePlain_splitOn u h2 (pipe_notMem_of_digits _ h3)
  simp only [deserialize, serialize, deobfuscate, obfuscate_obfuscate,
    map_ofNat_toNat, hsplit]
  simp only [serializeTokens, List.getD_cons_zero, List.getD_cons_succ]
  rw [stodCentsM_fmtBalance _ h4, stoiM_fmtInt _ h5]
  have hlock : (decide ((if u.locked then ['1'] else ['0']) = ['1'])) = u.locked := by
    cases u.locked <;> simp
  simp only [hlock]

/-- The in-memory store of `UserDB` (`unordered_map<string, User>`),
modelled as an association list keyed by username. -/
abbrev UserDB := List (List Char × User)

/-- Map assignment `users[u.username] = u`: replace the record stored
under the username, or insert it when absent. -/
def upsert : UserDB → User → UserDB
  | [], u => [(u.username, u)]
  | (k, v) :: rest, u =>
    if k = u.username then (k, u) :: rest else (k, v) :: upsert rest u

/-- Map lookup `users.find(username)`. -/
def dbFind : UserDB → List Char → Option User
  | [], _ => none
  | (k, v) :: rest, name => if k = name then some v else dbFind rest name

/-- The loop body of `UserDB::load`: skip empty lines, insert every line
that deserializes, and ignore (skip) every line whose deserialization
raises. -/
def loadAux (db : UserDB) : List (List Nat) → UserDB
  | [] => db
  | line :: rest =>
    if line = [] then loadAux db rest
    else
      match deserialize line with
      | some u => loadAux (upsert db u) rest
      | none => loadAux db rest

/-- The C++ method `UserDB::load`: start from an empty map and process
the persisted lines in order. -/
def load (lines : List (List Nat)) : UserDB := loadAux [] lines

/-- The C++ constant `MAX_WRONG_ATTEMPTS`. -/
def MAX_WRONG_ATTEMPTS : Int := 3

/-- The C++ method `UserDB::updateUser`: a no-op reporting failure when
the username is absent, otherwise replace the stored record (the `save`
to disk carries no information beyond the new map contents). -/
def updateUser (db : UserDB) (u : User) : Bool × UserDB :=
  if (dbFind db u.username).isSome then (true, upsert db u) else (false, db)

/-- Failure update of `authenticate`: increment `wrongAttempts` and set
`locked` when the count reaches `MAX_WRONG_ATTEMPTS`. -/
def failUpd (u : User) : User :=
  if MAX_WRONG_ATTEMPTS ≤ u.wrongAttempts + 1 then
    { u with wrongAttempts := u.wrongAttempts + 1, locked := true }
  else
    { u with wrongAttempts := u.wrongAttempts + 1 }

/-- The C++ function `authenticate`: reject a locked account at once
(before reading or comparing any PIN); on a correct candidate reset the
counter, persist and report success; on a wrong candidate increment the
counter, lock at the threshold, persist and report failure.  The result
carries the returned flag, the updated store and the updated user. -/
def authenticate (db : UserDB) (u : User) (entered : List Char) :
    Bool × UserDB × User :=
  if u.locked then (false, db, u)
  else if entered = u.pin then
    (true, (updateUser db { u with wrongAttempts := 0 }).2,
      { u with wrongAttempts := 0 })
  else
    (false, (updateUser db (failUpd u)).2, failUpd u)

/-- The C++ function `changePin`: authenticate first (with the candidate
PIN read inside `authenticate`), then read the new PIN and reject it on
a length mismatch or when it is sequential or repeat-heavy; otherwise
store it, reset the counter and persist. -/
def changePin (db : UserDB) (u : User) (entered newPin : List Char) :
    Bool × UserDB × User :=
  let a := authenticate db u entered
  if a.1 = false then (false, a.2.1, a.2.2)
  else if newPin.length ≠ a.2.2.pin.length then (false, a.2.1, a.2.2)
  else if isSequential newPin || hasTooManyRepeats newPin then (false, a.2.1, a.2.2)
  else
    let u2 : User := { a.2.2 with pin := newPin, wrongAttempts := 0 }
    (true, (updateUser a.2.1 u2).2, u2)

theorem auth_locked (db : UserDB) (u : User) (c : List Char) (h : u.locked = true) :
    authenticate db u c = (false, db, u) := by
  simp [authenticate, h]

theorem auth_success (db : UserDB) (u : User) (c : List Char)
    (hl : u.locked = false) (hc : c = u.pin) :
    authenticate db u c =
      (true, (updateUser db { u with wrongAttempts := 0 }).2,
        { u with wrongAttempts := 0 }) := by
  simp [authenticate, hl, hc]

theorem auth_fail (db : UserDB) (u : User) (c : List Char)
    (hl : u.locked = false) (hc : c ≠ u.pin) :
    authenticate db u c = (false, (updateUser db (failUpd u)).2, failUpd u) := by
  simp [authenticate, hl, hc]

theorem failUpd_username (u : User) : (failUpd u).username = u.username := by
  rw [failUpd]; split <;> rfl

theorem failUpd_pin (u : User) : (failUpd u).pin = u.pin := by
  rw [failUpd]; split <;> rfl

theorem failUpd_balance (u : User) : (failUpd u).balanceCents = u.balanceCents := by
  rw [failUpd]; split <;> rfl

theorem failUpd_wrongAttempts (u : User) :
    (failUpd u).wrongAttempts = u.wrongAttempts + 1 := by
  rw [failUpd]; split <;> rfl

theorem failUpd_locked (u : User) (h : u.locked = false) :
    (failUpd u).locked = decide (MAX_WRONG_ATTEMPTS ≤ u.wrongAttempts + 1) := by
  rw [failUpd]
  split
  · next hc => simp [hc]
  · next hc => simp [h, hc]

theorem dbFind_upsert_self (db : UserDB) (u : User) :
    dbFind (upsert db u) u.username = some u := by
  induction db with
  | nil => simp [upsert, dbFind]
  | cons kv rest ih =>
    obtain ⟨k, v⟩ := kv
    rw [upsert]
    by_cases hk : k = u.username
    · rw [if_pos hk, dbFind, if_pos hk]
    · rw [if_neg hk, dbFind, if_neg hk]
      exact ih

theorem dbFind_upsert_other (db : UserDB) (u : User) (name : List Char)
    (h : name ≠ u.username) :
    dbFind (upsert db u) name = dbFind db name := by
  induction db with
  | nil =>
    simp only [upsert, dbFind]
    rw [if_neg fun hc => h hc.symm]
  | cons kv rest ih =>
    obtain ⟨k, v⟩ := kv
    rw [upsert]
    by_cases hk : k = u.username
    · rw [if_pos hk, dbFind, dbFind]
      have hkn : ¬ k = name := fun hc => h (hc ▸ hk)
      rw [if_neg hkn, if_neg hkn]
    · rw [if_neg hk, dbFind, dbFind]
      by_cases hkn : k = name
      · rw [if_pos hkn, if_pos hkn]
      · rw [if_neg hkn, if_neg hkn]
        exact ih

theorem updateUser_keys (db : UserDB) (x : User) (name : List Char) :
    (dbFind (updateUser db x).2 name).isSome = (dbFind db name).isSome := by
  rw [updateUser]
  by_cases hf : (dbFind db x.username).isSome
  · rw [if_pos hf]
    by_cases hn : name = x.username
    · subst hn
      rw [dbFind_upsert_self]
      simp [hf]
    · rw [dbFind_upsert_other db x name hn]
  · rw [if_neg hf]

/-- C1: from any unlocked account state, three consecutive wrong-PIN
submissions leave the account locked (with `wrongAttempts` reaching the
maximum 3 when starting from a clean counter), and from a locked account
every authentication attempt is rejected immediately with no state
mutation and no dependence on the submitted candidate (no comparison
against the stored PIN). -/
theorem authenticate_lockout (db : UserDB) (u : User) (c1 c2 c3 : List Char)
    (hl : u.locked = false) (hw : 0 ≤ u.wrongAttempts)
    (h1 : c1 ≠ u.pin) (h2 : c2 ≠ u.pin) (h3 : c3 ≠ u.pin) :
    let r1 := authenticate db u c1
    let r2 := authenticate r1.2.1 r1.2.2 c2
    let r3 := authenticate r2.2.1 r2.2.2 c3
    (r3.2.2.locked = true ∧ r3.1 = false ∧
      (u.wrongAttempts = 0 → r3.2.2.wrongAttempts = 3)) ∧
    (∀ (dbv : UserDB) (v : User) (c : List Char), v.locked = true →
      authenticate dbv v c = (false, dbv, v)) ∧
    (∀ (dbv : UserDB) (v : User) (c c' : List Char), v.locked = true →
      authenticate dbv v c = authenticate dbv v c') := by
  intro r1 r2 r3
  have hlockstep : ∀ (dbv : UserDB) (v : User) (c : List Char), v.locked = true →
      authenticate dbv v c = (false, dbv, v) := fun dbv v c h => auth_locked dbv v c h
  refine ⟨?_, hlockstep, fun dbv v c c' h => by rw [hlockstep dbv v c h, hlockstep dbv v c' h]⟩
  have e1 : r1 = (false, (updateUser db (failUpd u)).2, failUpd u) :=
    auth_fail db u c1 hl h1
  by_cases hA : MAX_WRONG_ATTEMPTS ≤ u.wrongAttempts + 1
  · have hu1l : (failUpd u).locked = true := by
      rw [failUpd_locked u hl]
      simp [hA]
    have e2 : r2 = (false, r1.2.1, r1.2.2) := by
      show authenticate r1.2.1 r1.2.2 c2 = _
      rw [e1]
      exact auth_locked _ _ _ hu1l
    have e3 : r3 = (false, r2.2.1, r2.2.2) := by
      show authenticate r2.2.1 r2.2.2 c3 = _
      rw [e2, e1]
      exact auth_locked _ _ _ hu1l
    rw [e3, e2, e1]
    refine ⟨hu1l, rfl, ?_⟩
    intro h0
    rw [MAX_WRONG_ATTEMPTS] at hA
    omega
  · have hu1l : (failUpd u).locked = false := by
      rw [failUpd_locked u hl]
      simp [hA]
    have hu1w : (failUpd u).wrongAttempts = u.wrongAttempts + 1 := failUpd_wrongAttempts u
    have hu1p : (failUpd u).pin = u.pin := failUpd_pin u
    have e2 : r2 = (false, (updateUser r1.2.1 (failUpd (failUpd u))).2,
        failUpd (failUpd u)) := by
      show authenticate r1.2.1 r1.2.2 c2 = _
      rw [e1]
      exact auth_fail _ _ _ hu1l (by rw [hu1p]; exact h2)
    by_cases hB : MAX_WRONG_ATTEMPTS ≤ (failUpd u).wrongAttempts + 1
    · have hu2l : (failUpd (failUpd u)).locked = true := by
        rw [failUpd_locked _ hu1l]
        simp [hB]
      have e3 : r3 = (false, r2.2.1, r2.2.2) := by
        show authenticate r2.2.1 r2.2.2 c3 = _
        rw [e2]
        exact auth_locked _ _ _ hu2l
      rw [e3, e2]
      refine ⟨hu2l, rfl, ?_⟩
      intro h0
      rw [MAX_WRONG_ATTEMPTS] at hA hB
      rw [hu1w] at hB
      omega
    · have hu2l : (failUpd (failUpd u)).locked = false := by
        rw [failUpd_locked _ hu1l]
        simp [hB]
      have hu2w : (failUpd (failUpd u)).wrongAttempts = u.wrongAttempts + 2 := by
        rw [failUpd_wrongAttempts, hu1w]
        omega
      have hu2p : (failUpd (failUpd u)).pin = u.pin := by
        rw [failUpd_pin, hu1p]
      have e3 : r3 = (false, (updateUser r2.2.1 (failUpd (failUpd (failUpd u)))).2,
          failUpd (failUpd (failUpd u))) := by
        show authenticate r2.2.1 r2.2.2 c3 = _
        rw [e2]
        exact auth_fail _ _ _ hu2l (by rw [hu2p]; exact h3)
      have hw3 : MAX_WRONG_ATTEMPTS ≤ (failUpd (failUpd u)).wrongAttempts + 1 := by
        rw [hu2w, MAX_WRONG_ATTEMPTS]
        rw [MAX_WRONG_ATTEMPTS] at hA hB
        rw [hu1w] at hB
        omega
      have hu3l : (failUpd (failUpd (failUpd u))).locked = true := by
        rw [failUpd_locked _ hu2l]
        simp [hw3]
      rw [e3]
      refine ⟨hu3l, rfl, ?_⟩
      intro h0
      rw [failUpd_wrongAttempts, hu2w]
      omega

/-- C10: authenticate never changes the username, pin or balance of the
user record; a successful attempt changes only `wrongAttempts` (to 0),
and a failed attempt on an unlocked account changes only
`wrongAttempts` (incremented by 1) and possibly `locked` (set exactly
when the incremented counter reaches the maximum). -/
theorem authenticate_frame (db : UserDB) (u : User) (c : List Char) :
    let r := authenticate db u c
    (r.2.2.username = u.username ∧ r.2.2.pin = u.pin ∧
      r.2.2.balanceCents = u.balanceCents) ∧
    (r.1 = true → r.2.2 = { u with wrongAttempts := 0 }) ∧
    (u.locked = false → r.1 = false →
      r.2.2.wrongAttempts = u.wrongAttempts + 1 ∧
      r.2.2.locked = decide (MAX_WRONG_ATTEMPTS ≤ u.wrongAttempts + 1)) := by
  intro r
  by_cases hl : u.locked = true
  · have e : r = (false, db, u) := auth_locked db u c hl
    rw [e]
    exact ⟨⟨rfl, rfl, rfl⟩, fun h => absurd h (by simp),
      fun hnl => absurd hl (by simp [hnl])⟩
  · rw [Bool.not_eq_true] at hl
    by_cases hc : c = u.pin
    · have e : r = (true, (updateUser db { u with wrongAttempts := 0 }).2,
          { u with wrongAttempts := 0 }) := auth_success db u c hl hc
      rw [e]
      exact ⟨⟨rfl, rfl, rfl⟩, fun _ => rfl, fun _ h => absurd h (by simp)⟩
    · have e : r = (false, (updateUser db (failUpd u)).2, failUpd u) :=
        auth_fail db u c hl hc
      rw [e]
      refine ⟨⟨failUpd_username u, failUpd_pin u, failUpd_balance u⟩,
        fun h => absurd h (by simp), fun _ _ => ?_⟩
      exact ⟨failUpd_wrongAttempts u, failUpd_locked u hl⟩

/-- Demo account used for concrete evaluations: balance 1000.00 stored
as cents, clean counters. -/
def demoUser : User :=
  ⟨['a','l','i','c','e'], ['1','3','5','7'], 100000, 0, false⟩

/-- Demo store holding exactly the demo account. -/
def demoDb : UserDB := [(['a','l','i','c','e'], demoUser)]

/-- C5: a PIN change succeeds exactly when authentication passes, the
new PIN has the account's current PIN length, and the new PIN is
neither sequential nor repeat-heavy; it can never succeed from the
locked state; on success the stored pin becomes the new PIN and
`wrongAttempts` is reset to 0, and the updated record is persisted in
the store; the banned set is not consulted, as the concrete change to
the banned PIN 2580 succeeding shows. -/
theorem changePin_spec (db : UserDB) (u : User) (entered newPin : List Char) :
    let r := changePin db u entered newPin
    let a := authenticate db u entered
    (r.1 = true ↔ a.1 = true ∧ newPin.length = u.pin.length ∧
      isSequential newPin = false ∧ hasTooManyRepeats newPin = false) ∧
    (u.locked = true → r.1 = false) ∧
    (r.1 = true → r.2.2.pin = newPin ∧ r.2.2.wrongAttempts = 0) ∧
    ((dbFind db u.username).isSome = true → r.1 = true →
      dbFind r.2.1 u.username = some r.2.2) ∧
    ((changePin demoDb demoUser ['1','3','5','7'] ['2','5','8','0']).1 = true ∧
      ['2','5','8','0'] ∈ bannedPins) := by
  intro r a
  have hdemo : (changePin demoDb demoUser ['1','3','5','7'] ['2','5','8','0']).1 = true ∧
      ['2','5','8','0'] ∈ bannedPins := by decide
  by_cases hl : u.locked = true
  · have ea : a = (false, db, u) := auth_locked db u entered hl
    have ea' : authenticate db u entered = (false, db, u) := ea
    have er : r = (false, db, u) := by
      show changePin db u entered newPin = _
      simp only [changePin]
      rw [ea']
      simp
    rw [er, ea]
    refine ⟨?_, fun _ => rfl, ?_, ?_, hdemo⟩
    · constructor
      · intro h
        exact absurd h (by simp)
      · rintro ⟨h, _⟩
        exact absurd h (by simp)
    · intro h
      exact absurd h (by simp)
    · intro _ h
      exact absurd h (by simp)
  · rw [Bool.not_eq_true] at hl
    by_cases hc : entered = u.pin
    · have ea : a = (true, (updateUser db { u with wrongAttempts := 0 }).2,
          { u with wrongAttempts := 0 }) := auth_success db u entered hl hc
      have ea' : authenticate db u entered =
          (true, (updateUser db { u with wrongAttempts := 0 }).2,
            { u with wrongAttempts := 0 }) := ea
      by_cases hlen : newPin.length = u.pin.length
      · by_cases hweak : (isSequential newPin || hasTooManyRepeats newPin) = true
        · have er : r = (false, (updateUser db { u with wrongAttempts := 0 }).2,
              { u with wrongAttempts := 0 }) := by
            show changePin db u entered newPin = _
            simp only [changePin]
            rw [ea']
            simp [hlen, hweak]
          rw [er, ea]
          refine ⟨?_, fun hcontra => absurd hcontra (by simp [hl]), ?_, ?_, hdemo⟩
          · constructor
            · intro h
              exact absurd h (by simp)
            · rintro ⟨_, _, hs, hr2⟩
              rw [hs, hr2] at hweak
              exact absurd hweak (by simp)
          · intro h
            exact absurd h (by simp)
          · intro _ h
            exact absurd h (by simp)
        · simp only [Bool.or_eq_true, not_or, Bool.not_eq_true] at hweak
          obtain ⟨hs, hr2⟩ := hweak
          have er : r = (true,
              (updateUser (updateUser db { u with wrongAttempts := 0 }).2
                { u with pin := newPin, wrongAttempts := 0 }).2,
              { u with pin := newPin, wrongAttempts := 0 }) := by
            show changePin db u entered newPin = _
            simp only [changePin]
            rw [ea']
            simp [hlen, hs, hr2]
          rw [er, ea]
          refine ⟨?_, fun hcontra => absurd hcontra (by simp [hl]),
            fun _ => ⟨rfl, rfl⟩, ?_, hdemo⟩
          · simp [hlen, hs, hr2]
          · intro hsome _
            have hkeys : (dbFind (updateUser db { u with wrongAttempts := 0 }).2
                u.username).isSome = true := by
              rw [updateUser_keys]
              exact hsome
            rw [updateUser, if_pos (by exact hkeys)]
            exact dbFind_upsert_self _ _
      · have er : r = (false, (updateUser db { u with wrongAttempts := 0 }).2,
            { u with wrongAttempts := 0 }) := by
          show changePin db u entered newPin = _
          simp only [changePin]
          rw [ea']
          simp [hlen]
        rw [er, ea]
        refine ⟨?_, fun hcontra => absurd hcontra (by simp [hl]), ?_, ?_, hdemo⟩
        · constructor
          · intro h
            exact absurd h (by simp)
          · rintro ⟨_, hcontra, _⟩
            exact absurd hcontra hlen
        · intro h
          exact absurd h (by simp)
        · intro _ h
          exact absurd h (by simp)
    · have ea : a = (false, (updateUser db (failUpd u)).2, failUpd u) :=
        auth_fail db u entered hl hc
      have ea' : authenticate db u entered =
          (false, (updateUser db (failUpd u)).2, failUpd u) := ea
      have er : r = (false, (updateUser db (failUpd u)).2, failUpd u) := by
        show changePin db u entered newPin = _
        simp only [changePin]
        rw [ea']
        simp
      rw [er, ea]
      refine ⟨?_, fun _ => rfl, ?_, ?_, hdemo⟩
      · constructor
        · intro h
          exact absurd h (by simp)
        · rintro ⟨h, _⟩
          exact absurd h (by simp)
      · intro h
        exact absurd h (by simp)
      · intro _ h
        exact absurd h (by simp)

/-- C6: the obfuscation codec is self-inverse on every byte string,
including the empty one. -/
theorem deobfuscate_obfuscate (x : List Nat) : deobfuscate (obfuscate x) = x :=
  obfuscate_obfuscate x

/-- C4: whenever `generatePin` returns a PIN, for any fuel, random
source, target length and stream position, the PIN is a digit string of
exactly the target length, is not sequential, is not repeat-heavy and is
not a member of the fixed banned set. -/
theorem generatePin_spec (fuel : Nat) (stream : Nat → Fin 10) (len off : Nat)
    (pin : List Char) (h : generatePin fuel stream len off = some pin) :
    pin.length = len ∧ (∀ c ∈ pin, c.isDigit = true) ∧
    isSequential pin = false ∧ hasTooManyRepeats pin = false ∧
    pin ∉ bannedPins := by
  induction fuel generalizing off with
  | zero => exact absurd h (by simp [generatePin])
  | succ n ih =>
    simp only [generatePin] at h
    by_cases h1 : isSequential (drawPin stream off len) = true
    · rw [if_pos h1] at h
      exact ih _ h
    · rw [if_neg h1] at h
      by_cases h2 : hasTooManyRepeats (drawPin stream off len) = true
      · rw [if_pos h2] at h
        exact ih _ h
      · rw [if_neg h2] at h
        by_cases h3 : drawPin stream off len ∈ bannedPins
        · rw [if_pos h3] at h
          exact ih _ h
        · rw [if_neg h3] at h
          have hpin : drawPin stream off len = pin := Option.some.inj h
          subst hpin
          exact ⟨drawPin_length stream off len, drawPin_digits stream off len,
            Bool.not_eq_true _ ▸ eq_false_of_ne_true h1,
            Bool.not_eq_true _ ▸ eq_false_of_ne_true h2, h3⟩

/-- Deterministic digit source used to evaluate the generator on a
concrete run: it yields 1, 3, 5, 7 cyclically. -/
def demoStream : Nat → Fin 10 := fun i => ⟨(i % 4) * 2 + 1, by omega⟩

theorem generatePin_spec_witness :
    (['1','3','5','7'] : List Char).length = 4 ∧
    (∀ c ∈ (['1','3','5','7'] : List Char), c.isDigit = true) ∧
    isSequential ['1','3','5','7'] = false ∧
    hasTooManyRepeats ['1','3','5','7'] = false ∧
    ['1','3','5','7'] ∉ bannedPins :=
  generatePin_spec 1 demoStream 4 0 ['1','3','5','7'] (by decide)

/-- C9: for every non-empty digit string, `hasTooManyRepeats` is true
exactly when the string contains a run of three or more identical
consecutive digits or all of its digits are identical. -/
theorem hasTooManyRepeats_spec (pin : List Char) (hne : pin ≠ [])
    (_hd : ∀ c ∈ pin, c.isDigit = true) :
    (hasTooManyRepeats pin = true ↔ HasRun3 pin ∨ AllSame pin) :=
  hasTooManyRepeats_iff pin hne

theorem hasTooManyRepeats_spec_witness :
    hasTooManyRepeats ['1','1','1','2'] = true ∧
    (HasRun3 ['1','1','1','2'] ∨ AllSame ['1','1','1','2']) := by
  have h := hasTooManyRepeats_spec ['1','1','1','2'] (by decide) (by decide)
  exact ⟨by decide, h.mp (by decide)⟩

/-- C8 counterexample: the two-character digit string 29 is rejected by
`isSequential` (its unique adjacent pair ascends by 7), contradicting
the claim that single- and two-character inputs trivially satisfy one
direction. -/
theorem isSequential_two_char_counterexample :
    (['2','9'] : List Char).length = 2 ∧
    (∀ c ∈ (['2','9'] : List Char), c.isDigit = true) ∧
    isSequential ['2','9'] = false := by decide

/-- C8 (amended): for every non-empty digit string, `isSequential` is
true exactly when every adjacent pair ascends by exactly 1 across the
whole string or every adjacent pair descends by exactly 1; in particular
every arithmetic run with common difference plus or minus 1 is accepted,
and single-character inputs are trivially accepted, but a two-character
input is accepted only when its unique pair differs by exactly 1. -/
theorem isSequential_spec (pin : List Char) (hne : pin ≠ [])
    (_hd : ∀ c ∈ pin, c.isDigit = true) :
    (isSequential pin = true ↔ AscSeq pin ∨ DescSeq pin) ∧
    (pin.length = 1 → isSequential pin = true) := by
  refine ⟨isSequential_iff pin hne, ?_⟩
  intro hlen
  cases pin with
  | nil => exact absurd rfl hne
  | cons c rest =>
    have : rest = [] := by
      cases rest with
      | nil => rfl
      | cons d t => simp at hlen
    subst this
    rfl

theorem isSequential_spec_witness :
    isSequential ['3','2','1'] = true ∧
    (AscSeq ['3','2','1'] ∨ DescSeq ['3','2','1']) := by
  have h := isSequential_spec ['3','2','1'] (by decide) (by decide)
  exact ⟨by decide, h.1.mp (by decide)⟩

/-- Four valid demo records for exercising a bulk load. -/
def loadUser1 : User := ⟨['u','1'], ['2','5','8','0'], 100, 0, false⟩

/-- Second demo record. -/
def loadUser2 : User := ⟨['u','2'], ['1','3','5','7'], 200, 1, false⟩

/-- Third demo record. -/
def loadUser3 : User := ⟨['u','3'], ['9','7','5','3'], 300, 2, true⟩

/-- Fourth demo record. -/
def loadUser4 : User := ⟨['u','4'], ['8','6','4','2'], 400, 3, true⟩

/-- A persisted line that does not decode to a record: its plaintext has
a single field, so the balance parse fails. -/
def demoBadLine : List Nat :=
  obfuscate (['g','a','r','b','a','g','e'].map Char.toNat)

/-- C7: a line that fails to deserialize is skipped individually and the
load continues with the remaining lines; concretely, loading five lines
of which one is malformed yields the store holding exactly the four
valid accounts. -/
theorem load_skips_malformed :
    (∀ (db : UserDB) (bad : List Nat) (rest : List (List Nat)),
      deserialize bad = none → loadAux db (bad :: rest) = loadAux db rest) ∧
    load [serialize loadUser1, serialize loadUser2, demoBadLine,
        serialize loadUser3, serialize loadUser4] =
      [(loadUser1.username, loadUser1), (loadUser2.username, loadUser2),
       (loadUser3.username, loadUser3), (loadUser4.username, loadUser4)] := by
  constructor
  · intro db bad rest hbad
    by_cases hemp : bad = []
    · subst hemp
      rw [loadAux, if_pos rfl]
    · rw [loadAux, if_neg hemp, hbad]
  · decide

theorem load_skips_malformed_witness :
    deserialize demoBadLine = none ∧
    loadAux [] [demoBadLine] = loadAux [] [] :=
  ⟨by decide, load_skips_malformed.1 [] demoBadLine [] (by decide)⟩

/-- First wrong-PIN submission of the concrete lockout run. -/
def wrongTry1 : Bool × UserDB × User :=
  authenticate demoDb demoUser ['0','0','0','0']

/-- Second wrong-PIN submission of the concrete lockout run. -/
def wrongTry2 : Bool × UserDB × User :=
  authenticate wrongTry1.2.1 wrongTry1.2.2 ['0','0','0','0']

/-- Third wrong-PIN submission of the concrete lockout run. -/
def wrongTry3 : Bool × UserDB × User :=
  authenticate wrongTry2.2.1 wrongTry2.2.2 ['0','0','0','0']

theorem authenticate_lockout_witness :
    wrongTry3.2.2.locked = true ∧ wrongTry3.1 = false ∧
    wrongTry3.2.2.wrongAttempts = 3 :=
  have h := authenticate_lockout demoDb demoUser ['0','0','0','0'] ['0','0','0','0']
    ['0','0','0','0'] rfl (by decide) (by decide) (by decide) (by decide)
  ⟨h.1.1, h.1.2.1, h.1.2.2 rfl⟩

theorem deserialize_serialize_roundtrip_witness :
    deserialize (serialize demoUser) = some demoUser :=
  deserialize_serialize_roundtrip demoUser (by decide) (by decide) (by decide)
    (by decide) (by decide)

theorem changePin_spec_witness :
    (changePin demoDb demoUser ['1','3','5','7'] ['8','6','4','2']).1 = true ∧
    (changePin demoDb demoUser ['1','3','5','7'] ['8','6','4','2']).2.2.pin =
      ['8','6','4','2'] ∧
    (changePin demoDb demoUser ['1','3','5','7'] ['8','6','4','2']).2.2.wrongAttempts = 0 ∧
    dbFind (changePin demoDb demoUser ['1','3','5','7'] ['8','6','4','2']).2.1
      demoUser.username =
      some (changePin demoDb demoUser ['1','3','5','7'] ['8','6','4','2']).2.2 :=
  have h := changePin_spec demoDb demoUser ['1','3','5','7'] ['8','6','4','2']
  have hsucc : (changePin demoDb demoUser ['1','3','5','7'] ['8','6','4','2']).1 = true :=
    by decide
  ⟨hsucc, (h.2.2.1 hsucc).1, (h.2.2.1 hsucc).2, h.2.2.2.1 (by decide) hsucc⟩

theorem authenticate_frame_witness :
    (authenticate demoDb demoUser ['0','0','0','0']).2.2.username = demoUser.username ∧
    (authenticate demoDb demoUser ['0','0','0','0']).2.2.pin = demoUser.pin ∧
    (authenticate demoDb demoUser ['0','0','0','0']).2.2.balanceCents =
      demoUser.balanceCents ∧
    (authenticate demoDb demoUser ['0','0','0','0']).2.2.wrongAttempts =
      demoUser.wrongAttempts + 1 :=
  have h := authenticate_frame demoDb demoUser ['0','0','0','0']
  ⟨h.1.1, h.1.2.1, h.1.2.2, (h.2.2 rfl (by decide)).1⟩
